import Mathlib

/-!
# Verification of the scaphra scattered-phrase matcher

A shallow embedding of `src/scaphra/matcher.py` (the `Scaphra` class and its
helpers) together with theorems settling the specification claims.

Conventions of the embedding:
* Python `int` is `Int`; token positions produced by `enumerate` are cast from
  `Nat` to `Int`.
* A spaCy token is abstracted (as the spec's §6 boundary prescribes) by the
  data the matcher reads from it: its literal text, its trailing whitespace,
  its stem (`token._.stem`) and its lemma (`token.lemma_`).  A document is a
  list of such tokens.
* Python dictionaries keyed by strings (the token buckets, the group map) are
  association lists; `defaultdict(list)` lookup is `bget`/`alook` with default
  `[]`.  Python `set`s are duplicate-free lists in first-insertion order; the
  theorems use only membership and `Nodup` facts, which are independent of the
  unspecified iteration order of a CPython set.
* The pre-compiled regex `RE_BETWEEN` (pattern `^[^(),]*$|\(.*\)|,.*,`, with
  `re.MULTILINE`, used through `re.search`) is embedded as the decidable
  predicate `reBetween`.
-/

/-- A spaCy token as seen by the matcher: literal text, the whitespace that
follows it in the document, the cistem stem of its lowercased text
(`token._.stem`, installed via the global extension at module load), and the
spaCy lemma (`token.lemma_`).  Stems and lemmas are supplied by the external
normalization collaborators, so they are free fields here. -/
structure Token where
  text : String
  ws : String
  stem : String
  lemma_ : String
deriving DecidableEq, Repr

/-- Embedding of the frozen dataclass `Partial` from matcher.py: an
in-progress match, `id` indexing the pattern table and `positions` the token
indices matched so far.  Python tuples are lists; equality/hash is structural
in both. -/
structure PMatch where
  id : Nat
  positions : List Int
deriving DecidableEq, Repr

/-- First entry of an association list for a given key (Python `dict`
lookup); `none` when the key is absent. -/
def alook {α : Type} (k : String) : List (String × α) → Option α
  | [] => none
  | (k', v) :: rest => if k' = k then some v else alook k rest

/-- Update an association list at key `k` through `f` (which receives the
current binding, if any); inserts at the end when the key is absent.  This is
the common shape of Python `dict`/`defaultdict` mutation: in-place update of
an existing binding, append of a fresh one. -/
def alistUpd {α : Type} (k : String) (f : Option α → α) : List (String × α) → List (String × α)
  | [] => [(k, f none)]
  | (k', v) :: rest => if k' = k then (k', f (some v)) :: rest else (k', v) :: alistUpd k f rest

/-- `defaultdict(list)` read: the bucket for `k`, defaulting to `[]`. -/
def bget (b : List (String × List PMatch)) (k : String) : List PMatch :=
  (alook k b).getD []

/-- `defaultdict(list)`: `b[k].append(p)`. -/
def bapp (b : List (String × List PMatch)) (k : String) (p : PMatch) :
    List (String × List PMatch) :=
  alistUpd k (fun o => o.getD [] ++ [p]) b

/-- `ktz.collections.unbucket`: flatten a bucket dict into (key, item)
pairs. -/
def unbucket (b : List (String × List PMatch)) : List (String × PMatch) :=
  b.flatMap (fun e => e.2.map (fun p => (e.1, p)))

/-- Python set `add` on a duplicate-free list: append unless present
(matcher.py keeps completed matches in `matches: set[Partial]`). -/
def insertUniq (ms : List PMatch) (p : PMatch) : List PMatch :=
  if p ∈ ms then ms else ms ++ [p]

/-- Rendering of `str(doc[a:b])` for a list of tokens: spaCy span text is the
tokens' texts joined by each token's trailing whitespace, without the last
token's trailing whitespace. -/
def renderTokens : List Token → String
  | [] => ""
  | [t] => t.text
  | t :: ts => t.text ++ t.ws ++ renderTokens ts

/-- `str(doc[a : b])` — the literal text of the token slice `[a, b)`.  The
Python slice clamps out-of-range bounds; indices reaching this function are
non-negative, so `Int.toNat` clamping coincides with the slice semantics. -/
def spanText (doc : List Token) (a b : Int) : String :=
  renderTokens ((doc.take b.toNat).drop a.toNat)

/-- One line of `^[^(),]*$` under `re.MULTILINE`: every character of the line
is outside the disallowed set `(),`. -/
def lineClean (l : List Char) : Bool :=
  l.all (fun c => !(c == '(' || c == ')' || c == ','))

/-- Split a character list at newline characters; like Python line anchoring,
a trailing newline yields a final empty line, and the empty text has the
single empty line. -/
def splitLines : List Char → List (List Char)
  | [] => [[]]
  | c :: cs =>
    if c = '\n' then [] :: splitLines cs
    else
      match splitLines cs with
      | [] => [[c]]
      | l :: ls => (c :: l) :: ls

/-- Helper for `existsPair`: some later character equals `c` with no newline
before it (regex `.` does not cross line breaks). -/
def closesAt (c : Char) : List Char → Bool
  | [] => false
  | x :: xs => if x = c then true else if x = '\n' then false else closesAt c xs

/-- `re.search` of `c₁.*c₂`: some occurrence of `c₁` is followed, with no
intervening newline, by an occurrence of `c₂`. -/
def existsPair (c₁ c₂ : Char) : List Char → Bool
  | [] => false
  | x :: xs => (if x = c₁ then closesAt c₂ xs else false) || existsPair c₁ c₂ xs

/-- Embedding of `RE_BETWEEN.search(s)` for the compiled pattern
`^[^(),]*$|\(.*\)|,.*,` with `re.MULTILINE` (built by `_re_compile_between`):
some full line is free of `(`, `)`, `,`, or some `(` is later closed by `)`,
or some `,` is later followed by another `,`. -/
def reBetween (s : String) : Bool :=
  (splitLines s.data).any lineClean || existsPair '(' ')' s.data || existsPair ',' ',' s.data

/-- `self.max_space is not None and d >= self.max_space` for a distance
expression `d`. -/
def spaceExceeded : Option Int → Int → Bool
  | none, _ => false
  | some m, d => decide (m ≤ d)

/-- Embedding of `Scaphra._match_retain`.  Line-by-line from the source:
reject when `pos + part.positions[-1] >= max_space` (note the source really
adds the scanning position and the last recorded position); when more than
one position is recorded, take `lower, upper = part.positions[-2:]` (head of
the reversed list), reject when `upper - lower >= max_space`, and reject when
the text strictly between them contains a line break or fails `RE_BETWEEN`.
`positions` is never empty at the call sites (every stored partial has been
extended at least once), so the `getD 0` default of the last element is never
exercised. -/
def matchRetain (maxSpace : Option Int) (doc : List Token) (pos : Int) (part : PMatch) : Bool :=
  if spaceExceeded maxSpace (pos + (part.positions.getLast?.getD 0)) then false
  else
    match part.positions.reverse with
    | upper :: lower :: _ =>
      if spaceExceeded maxSpace (upper - lower) then false
      else
        let between := spanText doc (lower + 1) upper
        if between.data.any (fun c => c == '\n') || !reBetween between then false
        else true
    | _ => true

/-- Embedding of `spanify`'s nested scanning loops: `start` is the first
element of the current run, `cur` the latest one; the inner `while` keeps
absorbing successors while the difference is exactly 1. -/
def spanifyGo : Int → Int → List Int → List (Int × Int)
  | start, cur, [] => [(start, cur + 1)]
  | start, cur, y :: ys =>
    if y - cur = 1 then spanifyGo start y ys
    else (start, cur + 1) :: spanifyGo y y ys

/-- Embedding of `spanify`: coalesce a position list into half-open
`(start, end)` spans of consecutive runs. -/
def spanify : List Int → List (Int × Int)
  | [] => []
  | x :: xs => spanifyGo x x xs

/-- The token-normalization collaborator (`nlp.pipe` + the stem extension):
for each phrase string it yields the stemmed token sequence
`tuple(token._.stem for token in doc)` and the lemmatized token sequence
`tuple(token.lemma_ for token in doc)`. -/
structure Nlp where
  stems : String → List String
  lemmata : String → List String

/-- The registration stream of `Scaphra.__init__`: `raw` enumerates
`(phrase, key)` in phrasemap order, and for each processed doc both the stem
sequence and the lemma sequence are registered under the phrase's key. -/
def registered (nlp : Nlp) (pm : List (String × List String)) : List (List String × String) :=
  pm.flatMap (fun e =>
    e.2.flatMap (fun phrase => [(nlp.stems phrase, e.1), (nlp.lemmata phrase, e.1)]))

/-- `self.patternmap[tokens].add(key)` on the assoc-list model of
`defaultdict(set)`. -/
def pmapAdd (pmap : List (List String × List String)) (tokens : List String) (key : String) :
    List (List String × List String) :=
  match pmap with
  | [] => [(tokens, [key])]
  | (t, ks) :: rest =>
    if t = tokens then (t, if key ∈ ks then ks else ks ++ [key]) :: rest
    else (t, ks) :: pmapAdd rest tokens key

/-- `self.patternmap[tokens]` read (defaultdict: missing key reads as the
empty set). -/
def pmapGet (pmap : List (List String × List String)) (tokens : List String) : List String :=
  match pmap with
  | [] => []
  | (t, ks) :: rest => if t = tokens then ks else pmapGet rest tokens

/-- The registration loop of `__init__`: `self.patterns.add(tokens)` (a set,
modelled as a duplicate-free list in first-insertion order) and
`self.patternmap[tokens].add(key)`. -/
def initLoop (pairs : List (List String × String)) :
    List (List String) × List (List String × List String) :=
  pairs.foldl
    (fun acc e =>
      ((if e.1 ∈ acc.1 then acc.1 else acc.1 ++ [e.1]), pmapAdd acc.2 e.1 e.2))
    ([], [])

/-- The compiled matcher state: `max_space`, the pattern table
(`list(self.patterns)`) and the pattern→labels map. -/
structure Scaphra where
  maxSpace : Option Int
  patterns : List (List String)
  patternmap : List (List String × List String)
deriving Repr

/-- Embedding of `Scaphra.__init__` for a given (already expanded) phrasemap.
The source stores `max_space` unvalidated, registers the stem and lemma form
of every phrase (`expand_phrasemap` is the identity when no `augment`
callback is supplied), and keeps the deduplicated pattern table.  No phrase is
filtered: empty phrases run through `nlp.pipe` like any other. -/
def scaphraInit (nlp : Nlp) (pm : List (String × List String)) (maxSpace : Option Int) : Scaphra :=
  let r := initLoop (registered nlp pm)
  { maxSpace := maxSpace, patterns := r.1, patternmap := r.2 }

/-- `".".join(map(str, positions))`. -/
def posrep (positions : List Int) : String :=
  String.intercalate "." (positions.map toString)

/-- `f"match:{key}:{posrep}"` from `_match_group`. -/
def matchKey (key : String) (positions : List Int) : String :=
  "match:" ++ key ++ ":" ++ posrep positions

/-- The span group built in `_match_group` for one key: one
`spacy.tokens.Span(doc, start, end, label=key)` per coalesced run. -/
def spansFor (key : String) (positions : List Int) : List (Int × Int × String) :=
  (spanify positions).map (fun p => (p.1, p.2, key))

/-- `self.patternmap[self.patterns[part.id]]` — the labels of the partial's
pattern. -/
def patternKeysOf (S : Scaphra) (part : PMatch) : List String :=
  pmapGet S.patternmap (S.patterns.getD part.id [])

/-- `groups[name] = group` — plain dict assignment (overwrite or append). -/
def gput (g : List (String × List (Int × Int × String))) (k : String)
    (v : List (Int × Int × String)) : List (String × List (Int × Int × String)) :=
  alistUpd k (fun _ => v) g

/-- The inner loop of `_match_group` over one completed match: for every
label of its pattern, write the labelled span list under the unique
identifier `match:<key>:<dot-joined positions>`. -/
def groupOne (S : Scaphra) (g : List (String × List (Int × Int × String)))
    (part : PMatch) : List (String × List (Int × Int × String)) :=
  (patternKeysOf S part).foldl
    (fun g key => gput g (matchKey key part.positions) (spansFor key part.positions))
    g

/-- Embedding of `Scaphra._match_group`: for every completed match and every
label of its pattern, write its span group into the `groups` dict, which
collapses duplicate identifiers. -/
def matchGroup (S : Scaphra) (ms : List PMatch) :
    List (String × List (Int × Int × String)) :=
  ms.foldl (groupOne S) []

/-- The driving scan of `Scaphra.match`: for each token position, one entry
for the stem and one for the lemma, in that order, feeding one shared
state. -/
def tokenStream (doc : List Token) : List (Int × String) :=
  doc.enum.flatMap (fun e => [((e.1 : Int), e.2.stem), ((e.1 : Int), e.2.lemma_)])

/-- `pat_base`: base patterns bucketed by their first token
(`buckets(self.patterns, by_first_token)`), each as a fresh `Partial` with no
positions.  The source reads `pattern[0]`, which would raise on a zero-length
pattern; `headD ""` is never exercised for the well-formed tables the claims
evaluate. -/
def patBase (patterns : List (List String)) : List (String × List PMatch) :=
  patterns.enum.foldl (fun b e => bapp b (e.2.headD "") { id := e.1, positions := [] }) []

/-- Embedding of `Scaphra._filter_partials`: each candidate is extended with
the current position, dropped unless `_match_retain` accepts it, added to the
completed-match set when its pattern is exhausted, and otherwise bucketed
under the next expected token `pattern[len(positions)]`. -/
def filterPMs (patterns : List (List String)) (maxSpace : Option Int) (doc : List Token)
    (pos : Int) :
    List PMatch → List (String × List PMatch) × List PMatch →
    List (String × List PMatch) × List PMatch
  | [], acc => acc
  | old :: rest, acc =>
    let part : PMatch := { old with positions := old.positions ++ [pos] }
    let pattern := patterns.getD part.id []
    filterPMs patterns maxSpace doc pos rest
      (if !matchRetain maxSpace doc pos part then acc
       else if pattern.length = part.positions.length then (acc.1, insertUniq acc.2 part)
       else (bapp acc.1 (pattern.getD part.positions.length "") part, acc.2))

/-- One iteration of the scan loop in `Scaphra.match` for `(pos, token)`:
consume the base and active buckets for `token` through `_filter_partials`,
then re-validate every formerly active partial with `_match_retain` and carry
the survivors unchanged into the new active buckets. -/
def matchStep (patterns : List (List String)) (maxSpace : Option Int) (doc : List Token)
    (base : List (String × List PMatch)) (st : List (String × List PMatch) × List PMatch)
    (pos : Int) (token : String) : List (String × List PMatch) × List PMatch :=
  let joined := bget base token ++ bget st.1 token
  let r := filterPMs patterns maxSpace doc pos joined ([], st.2)
  let np := (unbucket st.1).foldl
    (fun np e => if matchRetain maxSpace doc pos e.2 then bapp np e.1 e.2 else np)
    r.1
  (np, r.2)

/-- The whole matching pass of `Scaphra.match` up to the completed-match set
(the span groups are produced from it by `matchGroup`). -/
def scaphraMatchPMs (patterns : List (List String)) (maxSpace : Option Int)
    (doc : List Token) : List PMatch :=
  ((tokenStream doc).foldl
      (fun st e => matchStep patterns maxSpace doc (patBase patterns) st e.1 e.2)
      ([], [])).2

/-- `Scaphra.match` end to end: completed matches turned into span groups. -/
def scaphraMatch (S : Scaphra) (doc : List Token) :
    List (String × List (Int × Int × String)) :=
  matchGroup S (scaphraMatchPMs S.patterns S.maxSpace doc)

/-- The between-text acceptance predicate in the words of the specification
(spec §4.2 / claim C3): no line break, and either no occurrence of `(`, `)`,
`,` at all, or the text is fully bounded by a parenthesis pair, or fully
bounded by a comma at each end.  Stated for comparison against the source's
`RE_BETWEEN` search. -/
def specBetweenOk (s : String) : Bool :=
  !s.data.any (fun c => c == '\n') &&
    (s.data.all (fun c => !(c == '(' || c == ')' || c == ',')) ||
      (s.data.head? == some '(' && s.data.getLast? == some ')') ||
      (s.data.head? == some ',' && s.data.getLast? == some ','))

/-- A token whose stem and lemma are its own text, followed by one space —
the generic shape produced by the tokenizer for a simple word. -/
def mkTok (s : String) : Token :=
  { text := s, ws := " ", stem := s, lemma_ := s }

/-- The module docstring's own example document: "A B C D E." as five word
tokens (lower-cased forms). -/
def exDocC1 : List Token := ["a", "b", "c", "d", "e"].map mkTok

/-- A one-token document whose stem is `a` and whose lemma is `b` — the
stem/lemma double scan of `Scaphra.match` visits position 0 once as `a` and
once as `b`. -/
def exDocC2 : List Token := [{ text := "tok", ws := "", stem := "a", lemma_ := "b" }]

/-- Document rendering the text `a ( b ) c` strictly between token 0 and
token 6 (the source comment's own `T: a ( b ) c` case). -/
def exDocC3 : List Token :=
  [mkTok "x", mkTok "a", mkTok "(", mkTok "b", mkTok ")",
   { text := "c", ws := "", stem := "c", lemma_ := "c" }, mkTok "y"]

/-- A concrete normalization collaborator: whitespace-split tokens, stem and
lemma both the token itself; the empty phrase yields the empty token
sequence (as `nlp.pipe("")` produces a zero-token doc). -/
def exNlp : Nlp :=
  { stems := fun s => if s = "" then [] else s.splitOn " ",
    lemmata := fun s => if s = "" then [] else s.splitOn " " }

/-- A compiled matcher whose single pattern `("a")` carries two labels —
two phrases of distinct labels normalizing identically. -/
def exScaphra : Scaphra :=
  { maxSpace := none, patterns := [["a"]], patternmap := [(["a"], ["k1", "k2"])] }

/-- Two-token document used by the C10 witness. -/
def exDocC10 : List Token := ["p", "q"].map mkTok

/-- The token-index set covered by a half-open span `(a, b)`: the list
`[a, a+1, ..., b-1]`.  Used to state what `spanify`'s coalescing means. -/
def rangeSpan (p : Int × Int) : List Int :=
  (List.range (p.2 - p.1).toNat).map (fun i => p.1 + Int.ofNat i)

/-- Claim C4: when `maxSpace` is set and the partial already has a prior
position, an extension whose distance between the immediately preceding
position `a` and the new position `pos` reaches `maxSpace` (equality
included — the inequality is exclusive) is rejected by `_match_retain`. -/
theorem scaphra_C4_window (m : Int) (doc : List Token) (pos : Int) (i : Nat)
    (l : List Int) (a : Int) (h : m ≤ pos - a) :
    matchRetain (some m) doc pos { id := i, positions := l ++ [a, pos] } = false := by
  have hrev : (l ++ [a, pos]).reverse = pos :: a :: l.reverse := by
    simp
  have hex : spaceExceeded (some m) (pos - a) = true := by
    simp [spaceExceeded, h]
  unfold matchRetain
  simp only [hrev, hex]
  split
  · rfl
  · simp

/-- Witness for C4 at the exact boundary: preceding position 0, new position
2, `maxSpace = 2`; the distance equals `maxSpace` and the extension is
rejected. -/
theorem scaphra_C4_window_witness :
    matchRetain (some 2) [] 2 { id := 0, positions := [0, 2] } = false ∧
      (2 : Int) - 0 = 2 :=
  ⟨scaphra_C4_window 2 [] 2 0 [] 0 (by decide), by decide⟩

/-- Claim C1: the windowing check of `_match_retain` does not compare the
distance between the first matched position and the new position. On the
module docstring's own example (pattern `A D` against `a b c d e` with
`max_space = 4 > 3`), the source computes `pos + part.positions[-1]`
(`3 + 3 = 6 ≥ 4`) and rejects the extension even though the distance from
the first matched position is `3 - 0 = 3 < 4`, so the whole pass yields no
match; with `max_space` unset the same document does match at positions
`(0, 3)`. -/
theorem scaphra_C1_code_eval :
    matchRetain (some 4) exDocC1 3 { id := 0, positions := [0, 3] } = false ∧
      (3 : Int) - 0 < 4 ∧
      scaphraMatchPMs [["a", "d"]] (some 4) exDocC1 = [] ∧
      scaphraMatchPMs [["a", "d"]] none exDocC1 = [{ id := 0, positions := [0, 3] }] :=
  ⟨rfl, by decide, rfl, rfl⟩

/-- Claim C2: the stem/lemma double scan can append the same position twice.
Against the pattern `("a", "b")`, a one-token document whose token has stem
`a` and lemma `b` produces the completed match with positions `(0, 0)` —
not strictly increasing. -/
theorem scaphra_C2_code_eval :
    scaphraMatchPMs [["a", "b"]] none exDocC2 = [{ id := 0, positions := [0, 0] }] ∧
      ¬ List.Chain' (· < ·) [(0 : Int), 0] :=
  ⟨rfl, by simp [List.chain'_pair]⟩

/-- Counterexample to claim C3 as stated: the between-text `a ( b ) c`
(the source comment's own `T` case) is accepted by `_match_retain`, yet it
contains `(` and `)` and is neither fully bounded by a parenthesis pair nor
by commas, so the claim's acceptance condition calls for rejection. -/
theorem scaphra_C3_counterexample :
    matchRetain none exDocC3 6 { id := 0, positions := [0, 6] } = true ∧
      spanText exDocC3 1 6 = "a ( b ) c" ∧
      specBetweenOk "a ( b ) c" = false :=
  ⟨rfl, rfl, rfl⟩

/-- Counterexample to claim C5 as stated: nothing in `__init__` skips empty
phrases — the empty phrase's empty stem sequence is installed, so the
pattern table contains a zero-length pattern. -/
theorem scaphra_C5_counterexample :
    [] ∈ (scaphraInit exNlp [("k", [""])] none).patterns ∧
      ([] : List String).length = 0 :=
  ⟨by decide, rfl⟩

/-- Counterexample to claim C6 as stated: constructing with
`max_space = 0 ≤ 0` raises nothing — `__init__` contains no validation —
and the matcher is installed carrying that value. -/
theorem scaphra_C6_counterexample :
    (scaphraInit exNlp [("k", ["a b"])] (some 0)).maxSpace = some 0 ∧ (0 : Int) ≤ 0 :=
  ⟨rfl, by decide⟩

/-- Claim C6 (amended): construction performs no validation of `maxSpace`;
whatever value is supplied — including values `≤ 0` — is stored on the
installed matcher unchanged. -/
theorem scaphra_C6_amended (nlp : Nlp) (pm : List (String × List String)) (m : Option Int) :
    (scaphraInit nlp pm m).maxSpace = m := rfl

theorem alook_alistUpd_self {α : Type} (k : String) (f : Option α → α) (l : List (String × α)) :
    alook k (alistUpd k f l) = some (f (alook k l)) := by
  induction l with
  | nil => simp [alistUpd, alook]
  | cons e rest ih =>
    obtain ⟨k₁, v₁⟩ := e
    by_cases h1 : k₁ = k
    · subst h1
      simp [alistUpd, alook]
    · simp [alistUpd, alook, h1, ih]

theorem alook_alistUpd_ne {α : Type} (k k' : String) (f : Option α → α)
    (l : List (String × α)) (h : k' ≠ k) :
    alook k' (alistUpd k f l) = alook k' l := by
  induction l with
  | nil =>
    have h2 : ¬ k = k' := fun hh => h hh.symm
    simp [alistUpd, alook, h2]
  | cons e rest ih =>
    obtain ⟨k₁, v₁⟩ := e
    by_cases h1 : k₁ = k
    · subst h1
      have h2 : ¬ k₁ = k' := fun hh => h hh.symm
      simp [alistUpd, alook, h2]
    · by_cases h2 : k₁ = k'
      · subst h2
        simp [alistUpd, alook, h1, h]
      · simp [alistUpd, alook, h1, h2, ih]

theorem bget_bapp (b : List (String × List PMatch)) (k k' : String) (p : PMatch) :
    bget (bapp b k p) k' = if k' = k then bget b k' ++ [p] else bget b k' := by
  unfold bget bapp
  by_cases h : k' = k
  · subst h
    rw [alook_alistUpd_self]
    simp
  · rw [alook_alistUpd_ne _ _ _ _ h, if_neg h]

theorem mem_unbucket (b : List (String × List PMatch)) (k : String) (p : PMatch)
    (h : p ∈ bget b k) : (k, p) ∈ unbucket b := by
  induction b with
  | nil => simp [bget, alook] at h
  | cons e rest ih =>
    obtain ⟨k₁, l₁⟩ := e
    unfold unbucket
    simp only [List.flatMap_cons]
    by_cases h1 : k₁ = k
    · subst h1
      have hp : p ∈ l₁ := by simpa [bget, alook] using h
      exact List.mem_append.mpr (Or.inl (List.mem_map.mpr ⟨p, hp, rfl⟩))
    · have h' : p ∈ bget rest k := by simpa [bget, alook, h1] using h
      exact List.mem_append.mpr (Or.inr (ih h'))

theorem mem_bget_foldl_cond (c : String × PMatch → Bool) (l : List (String × PMatch)) :
    ∀ (b₀ : List (String × List PMatch)) (k : String) (p : PMatch),
      (p ∈ bget b₀ k ∨ ((k, p) ∈ l ∧ c (k, p) = true)) →
      p ∈ bget (l.foldl (fun np e => if c e then bapp np e.1 e.2 else np) b₀) k := by
  induction l with
  | nil =>
    intro b₀ k p h
    simpa using h.resolve_right (by simp)
  | cons e rest ih =>
    intro b₀ k p h
    simp only [List.foldl_cons]
    apply ih
    rcases h with hb | ⟨hmem, hc⟩
    · left
      by_cases hce : c e = true
      · rw [if_pos hce, bget_bapp]
        by_cases hk : k = e.1
        · rw [if_pos hk]
          exact List.mem_append.mpr (Or.inl hb)
        · rw [if_neg hk]
          exact hb
      · rw [if_neg hce]
        exact hb
    · rcases List.mem_cons.mp hmem with he | hrest
      · left
        subst he
        rw [if_pos hc, bget_bapp]
        simp
      · exact Or.inr ⟨hrest, hc⟩

theorem bget_filterPMs_mono (patterns : List (List String)) (maxSpace : Option Int)
    (doc : List Token) (pos : Int) :
    ∀ (l : List PMatch) (acc : List (String × List PMatch) × List PMatch)
      (k : String) (p : PMatch),
      p ∈ bget acc.1 k → p ∈ bget (filterPMs patterns maxSpace doc pos l acc).1 k := by
  intro l
  induction l with
  | nil =>
    intro acc k p h
    simpa [filterPMs] using h
  | cons old rest ih =>
    intro acc k p h
    simp only [filterPMs]
    apply ih
    split
    · exact h
    · split
      · exact h
      · rw [bget_bapp]
        by_cases hk : k = (patterns.getD old.id []).getD (old.positions ++ [pos]).length ""
        · rw [if_pos hk]
          exact List.mem_append.mpr (Or.inl h)
        · rw [if_neg hk]
          exact h

theorem filterPMs_advances (patterns : List (List String)) (maxSpace : Option Int)
    (doc : List Token) (pos : Int) :
    ∀ (l : List PMatch) (acc : List (String × List PMatch) × List PMatch) (old : PMatch),
      old ∈ l →
      matchRetain maxSpace doc pos { id := old.id, positions := old.positions ++ [pos] } = true →
      (patterns.getD old.id []).length ≠ (old.positions ++ [pos]).length →
      { id := old.id, positions := old.positions ++ [pos] } ∈
        bget (filterPMs patterns maxSpace doc pos l acc).1
          ((patterns.getD old.id []).getD (old.positions ++ [pos]).length "") := by
  intro l
  induction l with
  | nil =>
    intro acc old h
    simp at h
  | cons o rest ih =>
    intro acc old hmem hret hlen
    rcases List.mem_cons.mp hmem with he | hrest
    · subst he
      simp only [filterPMs]
      apply bget_filterPMs_mono
      rw [hret]
      simp only [Bool.not_true, Bool.false_eq_true, if_false]
      rw [if_neg hlen]
      rw [bget_bapp, if_pos rfl]
      simp
    · simp only [filterPMs]
      exact ih _ _ hrest hret hlen

/-- Claim C10: at a scan step, every active-bucket partial that passes
`_match_retain` for the current position is carried unchanged into the next
active bucket under its own key — buckets whose key equals the current
token included, so a partial consumed by `_filter_partials` at this step is
simultaneously retained and (when it neither fails the filter nor
completes) also advanced into the bucket of its next expected token. -/
theorem scaphra_C10_retention (patterns : List (List String)) (maxSpace : Option Int)
    (doc : List Token) (base : List (String × List PMatch))
    (patPart : List (String × List PMatch)) (ms : List PMatch)
    (pos : Int) (token : String) (k : String) (p : PMatch)
    (hmem : p ∈ bget patPart k)
    (hret : matchRetain maxSpace doc pos p = true) :
    p ∈ bget (matchStep patterns maxSpace doc base (patPart, ms) pos token).1 k ∧
    (k = token →
      matchRetain maxSpace doc pos { id := p.id, positions := p.positions ++ [pos] } = true →
      (patterns.getD p.id []).length ≠ (p.positions ++ [pos]).length →
      { id := p.id, positions := p.positions ++ [pos] } ∈
        bget (matchStep patterns maxSpace doc base (patPart, ms) pos token).1
          ((patterns.getD p.id []).getD (p.positions ++ [pos]).length "")) := by
  constructor
  · exact mem_bget_foldl_cond _ _ _ _ _ (Or.inr ⟨mem_unbucket _ _ _ hmem, hret⟩)
  · intro hk hext hlen
    apply mem_bget_foldl_cond
    left
    apply filterPMs_advances patterns maxSpace doc pos _ _ p _ hext hlen
    subst hk
    exact List.mem_append.mpr (Or.inr hmem)

/-- Witness for C10: pattern `("p", "q", "r")` half-matched at position 0 and
waiting for `q`; at position 1 the token `q` arrives.  The partial is both
retained unchanged in the `q` bucket of the next state and advanced (to
positions `(0, 1)`) into the `r` bucket. -/
theorem scaphra_C10_retention_witness :
    ({ id := 0, positions := [0] } : PMatch) ∈
      bget (matchStep [["p", "q", "r"]] none exDocC10 (patBase [["p", "q", "r"]])
        ([("q", [{ id := 0, positions := [0] }])], []) 1 "q").1 "q" ∧
    ({ id := 0, positions := [0, 1] } : PMatch) ∈
      bget (matchStep [["p", "q", "r"]] none exDocC10 (patBase [["p", "q", "r"]])
        ([("q", [{ id := 0, positions := [0] }])], []) 1 "q").1 "r" := by
  have h := scaphra_C10_retention [["p", "q", "r"]] none exDocC10 (patBase [["p", "q", "r"]])
    [("q", [{ id := 0, positions := [0] }])] [] 1 "q" "q" { id := 0, positions := [0] }
    (by decide) (by decide)
  exact ⟨h.1, h.2 rfl (by decide) (by decide)⟩

theorem pmapGet_pmapAdd_self (pmap : List (List String × List String)) (t : List String)
    (key : String) :
    pmapGet (pmapAdd pmap t key) t =
      if key ∈ pmapGet pmap t then pmapGet pmap t else pmapGet pmap t ++ [key] := by
  induction pmap with
  | nil => simp [pmapAdd, pmapGet]
  | cons e rest ih =>
    obtain ⟨t₁, ks₁⟩ := e
    by_cases h1 : t₁ = t
    · subst h1
      simp [pmapAdd, pmapGet]
    · simp [pmapAdd, pmapGet, h1, ih]

theorem pmapGet_pmapAdd_ne (pmap : List (List String × List String)) (t t' : List String)
    (key : String) (h : t' ≠ t) :
    pmapGet (pmapAdd pmap t key) t' = pmapGet pmap t' := by
  induction pmap with
  | nil =>
    have h2 : ¬ t = t' := fun hh => h hh.symm
    simp [pmapAdd, pmapGet, h2]
  | cons e rest ih =>
    obtain ⟨t₁, ks₁⟩ := e
    by_cases h1 : t₁ = t
    · subst h1
      have h2 : ¬ t₁ = t' := fun hh => h hh.symm
      simp [pmapAdd, pmapGet, h2]
    · by_cases h2 : t₁ = t'
      · subst h2
        simp [pmapAdd, pmapGet, h1]
      · simp [pmapAdd, pmapGet, h1, h2, ih]

theorem mem_pmapGet_pmapAdd (pmap : List (List String × List String)) (t t' : List String)
    (key k' : String) :
    k' ∈ pmapGet (pmapAdd pmap t key) t' ↔
      k' ∈ pmapGet pmap t' ∨ (t' = t ∧ k' = key) := by
  by_cases h : t' = t
  · subst h
    rw [pmapGet_pmapAdd_self]
    by_cases hk : key ∈ pmapGet pmap t'
    · rw [if_pos hk]
      constructor
      · exact fun hh => Or.inl hh
      · rintro (hh | ⟨-, rfl⟩)
        · exact hh
        · exact hk
    · rw [if_neg hk]
      simp [List.mem_append]
  · rw [pmapGet_pmapAdd_ne _ _ _ _ h]
    simp [h]

theorem initLoop_pats_mem :
    ∀ (pairs : List (List String × String))
      (acc : List (List String) × List (List String × List String)) (t : List String),
      t ∈ (pairs.foldl
        (fun acc e => ((if e.1 ∈ acc.1 then acc.1 else acc.1 ++ [e.1]), pmapAdd acc.2 e.1 e.2))
        acc).1 ↔
        t ∈ acc.1 ∨ t ∈ pairs.map Prod.fst := by
  intro pairs
  induction pairs with
  | nil => simp
  | cons e rest ih =>
    intro acc t
    simp only [List.foldl_cons]
    rw [ih]
    by_cases he : e.1 ∈ acc.1
    · simp only [if_pos he, List.map_cons, List.mem_cons]
      constructor
      · rintro (h | h)
        · exact Or.inl h
        · exact Or.inr (Or.inr h)
      · rintro (h | h | h)
        · exact Or.inl h
        · subst h
          exact Or.inl he
        · exact Or.inr h
    · simp only [if_neg he, List.map_cons, List.mem_cons, List.mem_append,
        List.mem_singleton]
      tauto

theorem initLoop_pats_nodup :
    ∀ (pairs : List (List String × String))
      (acc : List (List String) × List (List String × List String)),
      acc.1.Nodup →
      (pairs.foldl
        (fun acc e => ((if e.1 ∈ acc.1 then acc.1 else acc.1 ++ [e.1]), pmapAdd acc.2 e.1 e.2))
        acc).1.Nodup := by
  intro pairs
  induction pairs with
  | nil => exact fun acc h => h
  | cons e rest ih =>
    intro acc h
    simp only [List.foldl_cons]
    apply ih
    by_cases he : e.1 ∈ acc.1
    · simpa [he] using h
    · simp [he, List.nodup_append, h]

theorem initLoop_pmap_mem :
    ∀ (pairs : List (List String × String))
      (acc : List (List String) × List (List String × List String)) (t : List String)
      (k : String),
      k ∈ pmapGet (pairs.foldl
        (fun acc e => ((if e.1 ∈ acc.1 then acc.1 else acc.1 ++ [e.1]), pmapAdd acc.2 e.1 e.2))
        acc).2 t ↔
        k ∈ pmapGet acc.2 t ∨ (t, k) ∈ pairs := by
  intro pairs
  induction pairs with
  | nil => simp
  | cons e rest ih =>
    intro acc t k
    simp only [List.foldl_cons]
    rw [ih]
    simp only [mem_pmapGet_pmapAdd, List.mem_cons, Prod.ext_iff]
    tauto

theorem mem_registered (nlp : Nlp) (pm : List (String × List String)) (t : List String)
    (k : String) :
    (t, k) ∈ registered nlp pm ↔
      ∃ phs, (k, phs) ∈ pm ∧ ∃ ph ∈ phs, t = nlp.stems ph ∨ t = nlp.lemmata ph := by
  simp only [registered, List.mem_flatMap, List.mem_cons, List.mem_singleton, Prod.ext_iff,
    List.not_mem_nil, or_false]
  constructor
  · rintro ⟨e, he, ph, hph, hcase⟩
    refine ⟨e.2, ?_, ph, hph, ?_⟩
    · rcases hcase with ⟨ht, hk⟩ | ⟨ht, hk⟩ <;>
        · rw [hk]
          simpa using he
    · rcases hcase with ⟨ht, hk⟩ | ⟨ht, hk⟩
      · exact Or.inl ht
      · exact Or.inr ht
  · rintro ⟨phs, hmem, ph, hph, hcase⟩
    refine ⟨(k, phs), hmem, ph, hph, ?_⟩
    rcases hcase with ht | ht
    · exact Or.inl ⟨ht, rfl⟩
    · exact Or.inr ⟨ht, rfl⟩

theorem mem_registered_fst (nlp : Nlp) (pm : List (String × List String)) (t : List String) :
    t ∈ (registered nlp pm).map Prod.fst ↔
      ∃ e ∈ pm, ∃ ph ∈ e.2, t = nlp.stems ph ∨ t = nlp.lemmata ph := by
  constructor
  · intro h
    obtain ⟨⟨t', k⟩, hmem, hfst⟩ := List.mem_map.mp h
    simp only at hfst
    subst hfst
    obtain ⟨phs, hphs, ph, hph, hcase⟩ := (mem_registered nlp pm t' k).mp hmem
    exact ⟨(k, phs), hphs, ph, hph, hcase⟩
  · rintro ⟨e, he, ph, hph, hcase⟩
    refine List.mem_map.mpr ⟨(t, e.1), ?_, rfl⟩
    refine (mem_registered nlp pm t e.1).mpr ⟨e.2, ?_, ph, hph, hcase⟩
    simpa using he

theorem mem_scaphraInit_patterns (nlp : Nlp) (pm : List (String × List String))
    (m : Option Int) (t : List String) :
    t ∈ (scaphraInit nlp pm m).patterns ↔ t ∈ (registered nlp pm).map Prod.fst := by
  have h := initLoop_pats_mem (registered nlp pm) ([], []) t
  simpa [scaphraInit, initLoop] using h

theorem mem_scaphraInit_patternmap (nlp : Nlp) (pm : List (String × List String))
    (m : Option Int) (t : List String) (k' : String) :
    k' ∈ pmapGet (scaphraInit nlp pm m).patternmap t ↔ (t, k') ∈ registered nlp pm := by
  have h := initLoop_pmap_mem (registered nlp pm) ([], []) t k'
  simpa [scaphraInit, initLoop, pmapGet] using h

theorem scaphraInit_patterns_nodup (nlp : Nlp) (pm : List (String × List String))
    (m : Option Int) : (scaphraInit nlp pm m).patterns.Nodup := by
  have h := initLoop_pats_nodup (registered nlp pm) ([], []) (by simp)
  simpa [scaphraInit, initLoop] using h

/-- Claim C7: for every phrase of the (expanded) lexicon both its stemmed and
its lemmatized token sequence are registered as patterns of that phrase's
label; the final table is the deduplicated set of all registered sequences
(membership-complete and duplicate-free), and the pattern map assigns to each
sequence exactly the labels of the phrases that normalize to it. -/
theorem scaphra_C7_compile (nlp : Nlp) (pm : List (String × List String)) (m : Option Int)
    (key : String) (phrases : List String) (phrase : String)
    (hk : (key, phrases) ∈ pm) (hp : phrase ∈ phrases) :
    nlp.stems phrase ∈ (scaphraInit nlp pm m).patterns ∧
    nlp.lemmata phrase ∈ (scaphraInit nlp pm m).patterns ∧
    key ∈ pmapGet (scaphraInit nlp pm m).patternmap (nlp.stems phrase) ∧
    key ∈ pmapGet (scaphraInit nlp pm m).patternmap (nlp.lemmata phrase) ∧
    (scaphraInit nlp pm m).patterns.Nodup ∧
    (∀ t, t ∈ (scaphraInit nlp pm m).patterns ↔
      ∃ e ∈ pm, ∃ ph ∈ e.2, t = nlp.stems ph ∨ t = nlp.lemmata ph) ∧
    (∀ t k', k' ∈ pmapGet (scaphraInit nlp pm m).patternmap t ↔
      ∃ phs, (k', phs) ∈ pm ∧ ∃ ph ∈ phs, t = nlp.stems ph ∨ t = nlp.lemmata ph) := by
  refine ⟨?_, ?_, ?_, ?_, scaphraInit_patterns_nodup nlp pm m, ?_, ?_⟩
  · exact (mem_scaphraInit_patterns nlp pm m _).mpr
      ((mem_registered_fst nlp pm _).mpr ⟨(key, phrases), hk, phrase, hp, Or.inl rfl⟩)
  · exact (mem_scaphraInit_patterns nlp pm m _).mpr
      ((mem_registered_fst nlp pm _).mpr ⟨(key, phrases), hk, phrase, hp, Or.inr rfl⟩)
  · exact (mem_scaphraInit_patternmap nlp pm m _ _).mpr
      ((mem_registered nlp pm _ _).mpr ⟨phrases, hk, phrase, hp, Or.inl rfl⟩)
  · exact (mem_scaphraInit_patternmap nlp pm m _ _).mpr
      ((mem_registered nlp pm _ _).mpr ⟨phrases, hk, phrase, hp, Or.inr rfl⟩)
  · intro t
    rw [mem_scaphraInit_patterns nlp pm m t]
    exact mem_registered_fst nlp pm t
  · intro t k'
    rw [mem_scaphraInit_patternmap nlp pm m t k']
    exact mem_registered nlp pm t k'

/-- Witness for C7: two phrases with distinct labels normalizing to the same
token sequence; both normalization forms of `"a b"` are installed and both
labels are recorded for them. -/
theorem scaphra_C7_compile_witness :
    exNlp.stems "a b" ∈ (scaphraInit exNlp [("k", ["a b"]), ("k2", ["a b"])] none).patterns ∧
    exNlp.lemmata "a b" ∈ (scaphraInit exNlp [("k", ["a b"]), ("k2", ["a b"])] none).patterns ∧
    "k" ∈ pmapGet (scaphraInit exNlp [("k", ["a b"]), ("k2", ["a b"])] none).patternmap
      (exNlp.stems "a b") ∧
    "k" ∈ pmapGet (scaphraInit exNlp [("k", ["a b"]), ("k2", ["a b"])] none).patternmap
      (exNlp.lemmata "a b") ∧
    (scaphraInit exNlp [("k", ["a b"]), ("k2", ["a b"])] none).patterns.Nodup := by
  have h := scaphra_C7_compile exNlp [("k", ["a b"]), ("k2", ["a b"])] none
    "k" ["a b"] "a b" (by decide) (by decide)
  exact ⟨h.1, h.2.1, h.2.2.1, h.2.2.2.1, h.2.2.2.2.1⟩

/-- Claim C5 (amended): no phrase is skipped at compile time — whenever a
phrase of the lexicon normalizes to an empty token sequence (as an empty or
whitespace-only phrase does), the zero-length pattern is installed in the
final table. -/
theorem scaphra_C5_amended (nlp : Nlp) (pm : List (String × List String)) (m : Option Int)
    (key : String) (phrases : List String) (phrase : String)
    (hk : (key, phrases) ∈ pm) (hp : phrase ∈ phrases) (he : nlp.stems phrase = []) :
    [] ∈ (scaphraInit nlp pm m).patterns := by
  refine (mem_scaphraInit_patterns nlp pm m _).mpr
    ((mem_registered_fst nlp pm _).mpr ⟨(key, phrases), hk, phrase, hp, Or.inl he.symm⟩)

/-- Witness for the amended C5: the empty phrase of label `k` yields the
zero-length pattern in the compiled table. -/
theorem scaphra_C5_amended_witness :
    [] ∈ (scaphraInit exNlp [("k", [""])] (some 0)).patterns :=
  scaphra_C5_amended exNlp [("k", [""])] (some 0) "k" [""] ""
    (by decide) (by decide) (by decide)

theorem alook_gput_self (g : List (String × List (Int × Int × String))) (k : String)
    (v : List (Int × Int × String)) : alook k (gput g k v) = some v := by
  unfold gput
  rw [alook_alistUpd_self]

theorem alook_gput_ne (g : List (String × List (Int × Int × String))) (k k' : String)
    (v : List (Int × Int × String)) (h : k' ≠ k) : alook k' (gput g k v) = alook k' g :=
  alook_alistUpd_ne k k' _ g h

theorem alook_gput_isSome (g : List (String × List (Int × Int × String))) (k k' : String)
    (v : List (Int × Int × String)) (h : (alook k' g).isSome = true) :
    (alook k' (gput g k v)).isSome = true := by
  by_cases hk : k' = k
  · subst hk
    rw [alook_gput_self]
    rfl
  · rw [alook_gput_ne g k k' v hk]
    exact h

theorem mem_gput (g : List (String × List (Int × Int × String))) (k : String)
    (v : List (Int × Int × String)) (e : String × List (Int × Int × String))
    (h : e ∈ gput g k v) : e ∈ g ∨ e = (k, v) := by
  unfold gput at h
  induction g with
  | nil =>
    simp only [alistUpd] at h
    exact Or.inr (by simpa using h)
  | cons e₁ rest ih =>
    obtain ⟨k₁, v₁⟩ := e₁
    simp only [alistUpd] at h
    by_cases h1 : k₁ = k
    · subst h1
      rw [if_pos rfl] at h
      rcases List.mem_cons.mp h with he | he
      · exact Or.inr (by simpa using he)
      · exact Or.inl (List.mem_cons.mpr (Or.inr he))
    · rw [if_neg h1] at h
      rcases List.mem_cons.mp h with he | he
      · exact Or.inl (List.mem_cons.mpr (Or.inl he))
      · rcases ih he with hg | hkv
        · exact Or.inl (List.mem_cons.mpr (Or.inr hg))
        · exact Or.inr hkv

theorem alook_eq_none_iff {α : Type} (k : String) (l : List (String × α)) :
    alook k l = none ↔ k ∉ l.map Prod.fst := by
  induction l with
  | nil => simp [alook]
  | cons e rest ih =>
    obtain ⟨k₁, v₁⟩ := e
    by_cases h1 : k₁ = k
    · subst h1
      simp [alook]
    · have hL : alook k ((k₁, v₁) :: rest) = alook k rest := by simp [alook, h1]
      rw [hL, ih]
      simp only [List.map_cons, List.mem_cons]
      constructor
      · intro hn hor
        rcases hor with hk | hmem
        · exact h1 hk.symm
        · exact hn hmem
      · intro hn hmem
        exact hn (Or.inr hmem)

theorem fst_gput (g : List (String × List (Int × Int × String))) (k : String)
    (v : List (Int × Int × String)) :
    (gput g k v).map Prod.fst =
      if (alook k g).isSome then g.map Prod.fst else g.map Prod.fst ++ [k] := by
  unfold gput
  induction g with
  | nil => simp [alistUpd, alook]
  | cons e rest ih =>
    obtain ⟨k₁, v₁⟩ := e
    by_cases h1 : k₁ = k
    · subst h1
      simp [alistUpd, alook]
    · simp only [alistUpd, if_neg h1, List.map_cons, alook]
      rw [ih]
      by_cases h2 : (alook k rest).isSome = true
      · simp [h2]
      · simp [h2]

theorem nodup_fst_gput (g : List (String × List (Int × Int × String))) (k : String)
    (v : List (Int × Int × String)) (h : (g.map Prod.fst).Nodup) :
    ((gput g k v).map Prod.fst).Nodup := by
  rw [fst_gput]
  by_cases hs : (alook k g).isSome = true
  · rwa [if_pos hs]
  · rw [if_neg hs]
    have hn : alook k g = none := by
      cases halt : alook k g
      · rfl
      · rw [halt] at hs
        exact absurd rfl hs
    have hnotin : k ∉ g.map Prod.fst := (alook_eq_none_iff k g).mp hn
    simp [List.nodup_append, h, hnotin]

theorem alook_foldl_gput_isSome (part : PMatch) :
    ∀ (keys : List String) (g : List (String × List (Int × Int × String))) (k₀ : String),
      (alook k₀ g).isSome = true →
      (alook k₀ (keys.foldl
        (fun g key => gput g (matchKey key part.positions) (spansFor key part.positions))
        g)).isSome = true := by
  intro keys
  induction keys with
  | nil => exact fun g k₀ h => h
  | cons k₁ ks ih =>
    intro g k₀ h
    simp only [List.foldl_cons]
    exact ih _ _ (alook_gput_isSome _ _ _ _ h)

theorem alook_foldl_gput_write (part : PMatch) :
    ∀ (keys : List String) (g : List (String × List (Int × Int × String))) (key : String),
      key ∈ keys →
      (alook (matchKey key part.positions) (keys.foldl
        (fun g key => gput g (matchKey key part.positions) (spansFor key part.positions))
        g)).isSome = true := by
  intro keys
  induction keys with
  | nil =>
    intro g key h
    simp at h
  | cons k₁ ks ih =>
    intro g key h
    simp only [List.foldl_cons]
    rcases List.mem_cons.mp h with he | hmem
    · subst he
      apply alook_foldl_gput_isSome
      rw [alook_gput_self]
      rfl
    · exact ih _ _ hmem

theorem alook_matchGroup_mono (S : Scaphra) :
    ∀ (ms : List PMatch) (g : List (String × List (Int × Int × String))) (k₀ : String),
      (alook k₀ g).isSome = true →
      (alook k₀ (ms.foldl (groupOne S) g)).isSome = true := by
  intro ms
  induction ms with
  | nil => exact fun g k₀ h => h
  | cons p ps ih =>
    intro g k₀ h
    simp only [List.foldl_cons]
    exact ih _ _ (alook_foldl_gput_isSome p _ g k₀ h)

theorem alook_matchGroup_write_gen (S : Scaphra) (part : PMatch) (key : String)
    (hk : key ∈ patternKeysOf S part) :
    ∀ (ms : List PMatch) (g : List (String × List (Int × Int × String))),
      part ∈ ms →
      (alook (matchKey key part.positions) (ms.foldl (groupOne S) g)).isSome = true := by
  intro ms
  induction ms with
  | nil =>
    intro g hp
    simp at hp
  | cons p ps ih =>
    intro g hp
    simp only [List.foldl_cons]
    rcases List.mem_cons.mp hp with he | hmem
    · subst he
      exact alook_matchGroup_mono S ps _ _ (alook_foldl_gput_write part _ g key hk)
    · exact ih _ hmem

theorem alook_matchGroup_write (S : Scaphra) (ms : List PMatch) (part : PMatch) (key : String)
    (hp : part ∈ ms) (hk : key ∈ patternKeysOf S part) :
    (alook (matchKey key part.positions) (matchGroup S ms)).isSome = true :=
  alook_matchGroup_write_gen S part key hk ms [] hp

theorem mem_foldl_gput_shape (part : PMatch) :
    ∀ (keys : List String) (g : List (String × List (Int × Int × String)))
      (e : String × List (Int × Int × String)),
      e ∈ keys.foldl
        (fun g key => gput g (matchKey key part.positions) (spansFor key part.positions)) g →
      e ∈ g ∨ ∃ key ∈ keys, e = (matchKey key part.positions, spansFor key part.positions) := by
  intro keys
  induction keys with
  | nil =>
    intro g e h
    exact Or.inl h
  | cons k₁ ks ih =>
    intro g e h
    simp only [List.foldl_cons] at h
    rcases ih _ _ h with hg | ⟨key, hkey, he⟩
    · rcases mem_gput _ _ _ _ hg with hg' | he
      · exact Or.inl hg'
      · exact Or.inr ⟨k₁, List.mem_cons_self _ _, he⟩
    · exact Or.inr ⟨key, List.mem_cons.mpr (Or.inr hkey), he⟩

theorem mem_matchGroup_shape (S : Scaphra) :
    ∀ (ms : List PMatch) (g : List (String × List (Int × Int × String)))
      (e : String × List (Int × Int × String)),
      e ∈ ms.foldl (groupOne S) g →
      e ∈ g ∨ ∃ part ∈ ms, ∃ key ∈ patternKeysOf S part,
        e = (matchKey key part.positions, spansFor key part.positions) := by
  intro ms
  induction ms with
  | nil =>
    intro g e h
    exact Or.inl h
  | cons p ps ih =>
    intro g e h
    simp only [List.foldl_cons] at h
    rcases ih _ _ h with hg | ⟨part, hpart, key, hkey, he⟩
    · rcases mem_foldl_gput_shape p _ _ _ hg with hg' | ⟨key, hkey, he⟩
      · exact Or.inl hg'
      · exact Or.inr ⟨p, List.mem_cons_self _ _, key, hkey, he⟩
    · exact Or.inr ⟨part, List.mem_cons.mpr (Or.inr hpart), key, hkey, he⟩

theorem nodup_fst_foldl_gput (part : PMatch) :
    ∀ (keys : List String) (g : List (String × List (Int × Int × String))),
      (g.map Prod.fst).Nodup →
      ((keys.foldl
        (fun g key => gput g (matchKey key part.positions) (spansFor key part.positions))
        g).map Prod.fst).Nodup := by
  intro keys
  induction keys with
  | nil => exact fun g h => h
  | cons k₁ ks ih =>
    intro g h
    simp only [List.foldl_cons]
    exact ih _ (nodup_fst_gput _ _ _ h)

theorem nodup_fst_matchGroup (S : Scaphra) (ms : List PMatch) :
    ((matchGroup S ms).map Prod.fst).Nodup := by
  unfold matchGroup
  have hgen : ∀ (l : List PMatch) (g : List (String × List (Int × Int × String))),
      (g.map Prod.fst).Nodup → ((l.foldl (groupOne S) g).map Prod.fst).Nodup := by
    intro l
    induction l with
    | nil => exact fun g h => h
    | cons p ps ih =>
      intro g h
      simp only [List.foldl_cons]
      exact ih _ (nodup_fst_foldl_gput p _ g h)
  exact hgen ms [] (by simp)

theorem matchKey_label_inj (k₁ k₂ : String) (p : List Int)
    (h : matchKey k₁ p = matchKey k₂ p) : k₁ = k₂ := by
  have h1 := congrArg String.data h
  simp only [matchKey, String.data_append, List.append_assoc] at h1
  have h2 := List.append_cancel_left h1
  have h3 := List.append_cancel_right h2
  exact String.ext h3

theorem rangeSpan_single (a : Int) : rangeSpan (a, a + 1) = [a] := by
  have h1 : (a + 1 - a).toNat = 1 := by omega
  simp [rangeSpan, h1, List.range_succ]

theorem rangeSpan_snoc (a b : Int) (h : a ≤ b) :
    rangeSpan (a, b + 1) = rangeSpan (a, b) ++ [b] := by
  have h1 : (b + 1 - a).toNat = (b - a).toNat + 1 := by omega
  have h2 : a + Int.ofNat (b - a).toNat = b := by
    have hc : Int.ofNat (b - a).toNat = ((b - a).toNat : Int) := rfl
    rw [hc]
    omega
  unfold rangeSpan
  rw [h1, List.range_succ, List.map_append]
  simp only [List.map_cons, List.map_nil]
  rw [h2]

theorem spanifyGo_flat :
    ∀ (ys : List Int) (start cur : Int), start ≤ cur →
      List.Chain' (· < ·) (cur :: ys) →
      (spanifyGo start cur ys).flatMap rangeSpan = rangeSpan (start, cur + 1) ++ ys := by
  intro ys
  induction ys with
  | nil =>
    intro start cur _ _
    simp [spanifyGo]
  | cons y ys ih =>
    intro start cur hle hchain
    have hcy : cur < y := (List.chain'_cons.mp hchain).1
    have hchain' : List.Chain' (· < ·) (y :: ys) := (List.chain'_cons.mp hchain).2
    by_cases hy : y - cur = 1
    · have hy' : y = cur + 1 := by omega
      simp only [spanifyGo, if_pos hy]
      rw [ih start y (by omega) hchain', hy']
      rw [rangeSpan_snoc start (cur + 1) (by omega)]
      simp
    · simp only [spanifyGo, if_neg hy]
      rw [List.flatMap_cons]
      rw [ih y y le_rfl hchain']
      rw [rangeSpan_single y]
      simp

theorem spanifyGo_head :
    ∀ (ys : List Int) (start cur : Int),
      ∃ b tl, spanifyGo start cur ys = (start, b) :: tl ∧ cur < b := by
  intro ys
  induction ys with
  | nil =>
    intro start cur
    exact ⟨cur + 1, [], rfl, by omega⟩
  | cons y ys ih =>
    intro start cur
    by_cases hy : y - cur = 1
    · obtain ⟨b, tl, heq, hlt⟩ := ih start y
      refine ⟨b, tl, ?_, by omega⟩
      simp only [spanifyGo, if_pos hy]
      exact heq
    · exact ⟨cur + 1, spanifyGo y y ys, by simp [spanifyGo, if_neg hy], by omega⟩

theorem spanifyGo_chain :
    ∀ (ys : List Int) (start cur : Int), start ≤ cur →
      List.Chain' (· < ·) (cur :: ys) →
      List.Chain' (fun s t => s.2 < t.1) (spanifyGo start cur ys) ∧
      ∀ p ∈ spanifyGo start cur ys, p.1 < p.2 := by
  intro ys
  induction ys with
  | nil =>
    intro start cur hle _
    constructor
    · simp [spanifyGo]
    · intro p hp
      simp only [spanifyGo, List.mem_singleton] at hp
      subst hp
      simpa using by omega
  | cons y ys ih =>
    intro start cur hle hchain
    have hcy : cur < y := (List.chain'_cons.mp hchain).1
    have hchain' : List.Chain' (· < ·) (y :: ys) := (List.chain'_cons.mp hchain).2
    by_cases hy : y - cur = 1
    · simp only [spanifyGo, if_pos hy]
      exact ih start y (by omega) hchain'
    · simp only [spanifyGo, if_neg hy]
      obtain ⟨hch, hbd⟩ := ih y y le_rfl hchain'
      obtain ⟨b, tl, heq, hlt⟩ := spanifyGo_head ys y y
      constructor
      · rw [heq]
        rw [heq] at hch
        refine List.chain'_cons.mpr ⟨?_, hch⟩
        simp only
        omega
      · intro p hp
        rcases List.mem_cons.mp hp with he | hmem
        · subst he
          simpa using by omega
        · exact hbd p hmem

theorem spanify_flat (l : List Int) (h : List.Chain' (· < ·) l) :
    (spanify l).flatMap rangeSpan = l := by
  cases l with
  | nil => simp [spanify]
  | cons x xs =>
    unfold spanify
    rw [spanifyGo_flat xs x x le_rfl h, rangeSpan_single x]
    simp

theorem spanify_maximal (l : List Int) (h : List.Chain' (· < ·) l) :
    List.Chain' (fun s t => s.2 < t.1) (spanify l) ∧ ∀ p ∈ spanify l, p.1 < p.2 := by
  cases l with
  | nil => simp [spanify]
  | cons x xs =>
    unfold spanify
    exact spanifyGo_chain xs x x le_rfl h

/-- Claim C8: for every completed match and each label of its pattern, the
group map holds an entry under the key `match:<label>:<dot-joined
positions>`; every entry of the group map is the labelled spanification of a
completed match; and `spanify` coalesces a strictly increasing position list
into half-open spans that exactly cover the positions (flattening the spans
recovers the list), are separated by gaps (maximality), and are nonempty —
with `[1,2,3,6,8,9]` yielding `[(1,4),(6,7),(8,10)]`. -/
theorem scaphra_C8_grouping (S : Scaphra) (ms : List PMatch) (part : PMatch) (key : String)
    (hpart : part ∈ ms) (hkey : key ∈ patternKeysOf S part)
    (hinc : List.Chain' (· < ·) part.positions) :
    (alook (matchKey key part.positions) (matchGroup S ms)).isSome = true ∧
    matchKey key part.positions = "match:" ++ key ++ ":" ++ posrep part.positions ∧
    (∀ e ∈ matchGroup S ms, ∃ p' ∈ ms, ∃ k' ∈ patternKeysOf S p',
        e = (matchKey k' p'.positions, spansFor k' p'.positions)) ∧
    (spanify part.positions).flatMap rangeSpan = part.positions ∧
    List.Chain' (fun s t => s.2 < t.1) (spanify part.positions) ∧
    (∀ p ∈ spanify part.positions, p.1 < p.2) ∧
    spanify [1, 2, 3, 6, 8, 9] = [(1, 4), (6, 7), (8, 10)] := by
  refine ⟨alook_matchGroup_write S ms part key hpart hkey, rfl, ?_, spanify_flat _ hinc,
    (spanify_maximal _ hinc).1, (spanify_maximal _ hinc).2, rfl⟩
  intro e he
  exact (mem_matchGroup_shape S ms [] e he).resolve_left (by simp)

/-- Witness for C8 on the spec's own example positions `[1,2,3,6,8,9]`. -/
theorem scaphra_C8_grouping_witness :
    (alook (matchKey "k1" [1, 2, 3, 6, 8, 9])
      (matchGroup exScaphra [{ id := 0, positions := [1, 2, 3, 6, 8, 9] }])).isSome = true ∧
    (spanify [1, 2, 3, 6, 8, 9]).flatMap rangeSpan = [1, 2, 3, 6, 8, 9] ∧
    spanify [1, 2, 3, 6, 8, 9] = [(1, 4), (6, 7), (8, 10)] := by
  have h := scaphra_C8_grouping exScaphra [{ id := 0, positions := [1, 2, 3, 6, 8, 9] }]
    { id := 0, positions := [1, 2, 3, 6, 8, 9] } "k1" (by decide) (by decide)
    (by simp [List.chain'_cons])
  exact ⟨h.1, h.2.2.2.1, h.2.2.2.2.2.2⟩

/-- Claim C9: grouping is a pure function of the completed-match set, so a
second run returns the identical mapping; duplicate identifiers collapse (the
key list of the output map is duplicate-free); and two distinct labels
sharing one position signature yield two distinct keys, both present in the
output. -/
theorem scaphra_C9_idempotent (S : Scaphra) (ms : List PMatch) (part : PMatch) (k₁ k₂ : String)
    (hpart : part ∈ ms) (h1 : k₁ ∈ patternKeysOf S part) (h2 : k₂ ∈ patternKeysOf S part)
    (hne : k₁ ≠ k₂) :
    matchGroup S ms = matchGroup S ms ∧
    ((matchGroup S ms).map Prod.fst).Nodup ∧
    matchKey k₁ part.positions ≠ matchKey k₂ part.positions ∧
    (alook (matchKey k₁ part.positions) (matchGroup S ms)).isSome = true ∧
    (alook (matchKey k₂ part.positions) (matchGroup S ms)).isSome = true := by
  refine ⟨rfl, nodup_fst_matchGroup S ms, ?_, alook_matchGroup_write S ms part k₁ hpart h1,
    alook_matchGroup_write S ms part k₂ hpart h2⟩
  intro h
  exact hne (matchKey_label_inj k₁ k₂ part.positions h)

/-- Witness for C9: the pattern `("a")` carries the two labels `k1` and `k2`;
one completed match at position 2 produces both `match:k1:2` and
`match:k2:2`. -/
theorem scaphra_C9_idempotent_witness :
    matchKey "k1" [2] ≠ matchKey "k2" [2] ∧
    ((matchGroup exScaphra [{ id := 0, positions := [2] }]).map Prod.fst).Nodup ∧
    (alook (matchKey "k1" [2]) (matchGroup exScaphra [{ id := 0, positions := [2] }])).isSome
      = true ∧
    (alook (matchKey "k2" [2]) (matchGroup exScaphra [{ id := 0, positions := [2] }])).isSome
      = true := by
  have h := scaphra_C9_idempotent exScaphra [{ id := 0, positions := [2] }]
    { id := 0, positions := [2] } "k1" "k2" (by decide) (by decide) (by decide) (by decide)
  exact ⟨h.2.2.1, h.2.1, h.2.2.2.1, h.2.2.2.2⟩

theorem splitLines_of_no_newline : ∀ l : List Char, '\n' ∉ l → splitLines l = [l] := by
  intro l
  induction l with
  | nil => intro _; rfl
  | cons c cs ih =>
    intro h
    have hc : ¬ c = '\n' := by
      intro he
      apply h
      rw [he]
      exact List.mem_cons_self _ _
    have hcs : '\n' ∉ cs := fun hm => h (List.mem_cons.mpr (Or.inr hm))
    simp only [splitLines, if_neg hc]
    rw [ih hcs]

theorem lineClean_iff (l : List Char) :
    lineClean l = true ↔ ∀ c ∈ l, ¬(c = '(' ∨ c = ')' ∨ c = ',') := by
  simp [lineClean, List.all_eq_true, not_or, and_assoc]

theorem closesAt_iff (c : Char) (hc : c ≠ '\n') :
    ∀ l : List Char, closesAt c l = true ↔ ∃ v w, l = v ++ c :: w ∧ '\n' ∉ v := by
  intro l
  induction l with
  | nil =>
    simp only [closesAt]
    constructor
    · intro h
      exact absurd h (by simp)
    · rintro ⟨v, w, hl, -⟩
      exact absurd hl (by simp)
  | cons x xs ih =>
    by_cases hx : x = c
    · subst hx
      simp only [closesAt, if_pos rfl]
      constructor
      · intro _
        exact ⟨[], xs, rfl, by simp⟩
      · intro _
        rfl
    · by_cases hn : x = '\n'
      · subst hn
        simp only [closesAt, if_neg hx, if_pos rfl]
        constructor
        · intro h
          exact absurd h (by simp)
        · rintro ⟨v, w, hl, hnv⟩
          cases v with
          | nil =>
            simp only [List.nil_append, List.cons.injEq] at hl
            exact absurd hl.1 hx
          | cons v₀ v' =>
            simp only [List.cons_append, List.cons.injEq] at hl
            exact absurd (by rw [hl.1]; exact List.mem_cons_self _ _) hnv
      · simp only [closesAt, if_neg hx, if_neg hn]
        rw [ih]
        constructor
        · rintro ⟨v, w, hl, hnv⟩
          refine ⟨x :: v, w, by rw [hl]; rfl, ?_⟩
          intro hmem
          rcases List.mem_cons.mp hmem with he | hm
          · exact hn he.symm
          · exact hnv hm
        · rintro ⟨v, w, hl, hnv⟩
          cases v with
          | nil =>
            simp only [List.nil_append, List.cons.injEq] at hl
            exact absurd hl.1 hx
          | cons v₀ v' =>
            simp only [List.cons_append, List.cons.injEq] at hl
            refine ⟨v', w, hl.2, fun hm => hnv ?_⟩
            exact List.mem_cons.mpr (Or.inr hm)

theorem existsPair_iff (c₁ c₂ : Char) (hc : c₂ ≠ '\n') :
    ∀ l : List Char,
      existsPair c₁ c₂ l = true ↔ ∃ u v w, l = u ++ c₁ :: v ++ c₂ :: w ∧ '\n' ∉ v := by
  intro l
  induction l with
  | nil =>
    simp only [existsPair]
    constructor
    · intro h
      exact absurd h (by simp)
    · rintro ⟨u, v, w, hl, -⟩
      exact absurd hl (by simp)
  | cons x xs ih =>
    simp only [existsPair, Bool.or_eq_true]
    constructor
    · rintro (h | h)
      · by_cases hx : x = c₁
        · rw [if_pos hx] at h
          obtain ⟨v, w, hxs, hnv⟩ := (closesAt_iff c₂ hc xs).mp h
          exact ⟨[], v, w, by rw [hxs, hx]; rfl, hnv⟩
        · rw [if_neg hx] at h
          exact absurd h (by simp)
      · obtain ⟨u, v, w, hxs, hnv⟩ := ih.mp h
        exact ⟨x :: u, v, w, by rw [hxs]; rfl, hnv⟩
    · rintro ⟨u, v, w, hl, hnv⟩
      cases u with
      | nil =>
        rw [List.nil_append] at hl
        injection hl with h1 h2
        left
        rw [if_pos h1]
        exact (closesAt_iff c₂ hc xs).mpr ⟨v, w, h2, hnv⟩
      | cons u₀ u' =>
        rw [List.cons_append] at hl
        injection hl with h1 h2
        right
        exact ih.mpr ⟨u', v, w, h2, hnv⟩

theorem reBetween_no_newline (s : String) (h : '\n' ∉ s.data) :
    reBetween s = true ↔
      ((∀ c ∈ s.data, ¬(c = '(' ∨ c = ')' ∨ c = ',')) ∨
        (∃ u v w, s.data = u ++ '(' :: v ++ ')' :: w) ∨
        (∃ u v w, s.data = u ++ ',' :: v ++ ',' :: w)) := by
  unfold reBetween
  rw [splitLines_of_no_newline s.data h]
  simp only [List.any_cons, List.any_nil, Bool.or_false, Bool.or_eq_true]
  constructor
  · rintro ((h1 | h2) | h3)
    · exact Or.inl ((lineClean_iff _).mp h1)
    · obtain ⟨u, v, w, heq, -⟩ := (existsPair_iff '(' ')' (by decide) _).mp h2
      exact Or.inr (Or.inl ⟨u, v, w, heq⟩)
    · obtain ⟨u, v, w, heq, -⟩ := (existsPair_iff ',' ',' (by decide) _).mp h3
      exact Or.inr (Or.inr ⟨u, v, w, heq⟩)
  · rintro (h1 | ⟨u, v, w, heq⟩ | ⟨u, v, w, heq⟩)
    · exact Or.inl (Or.inl ((lineClean_iff _).mpr h1))
    · refine Or.inl (Or.inr ((existsPair_iff '(' ')' (by decide) _).mpr
        ⟨u, v, w, heq, fun hm => h ?_⟩))
      rw [heq]
      simp [hm]
    · refine Or.inr ((existsPair_iff ',' ',' (by decide) _).mpr
        ⟨u, v, w, heq, fun hm => h ?_⟩)
      rw [heq]
      simp [hm]

/-- Claim C3 (amended): for an extension with at least one prior position and
`maxSpace` unset, `_match_retain` accepts exactly when the literal text
strictly between the preceding position `a` and the new position `b` contains
no line break and either contains none of `(`, `)`, `,`, or contains
somewhere a `(` followed later by a `)`, or contains somewhere a `,` followed
later by another `,` — containment anywhere suffices; full bounding by the
pair is not required. -/
theorem scaphra_C3_amended (doc : List Token) (pos : Int) (i : Nat) (l : List Int)
    (a b : Int) :
    matchRetain none doc pos { id := i, positions := l ++ [a, b] } = true ↔
      ('\n' ∉ (spanText doc (a + 1) b).data ∧
        ((∀ c ∈ (spanText doc (a + 1) b).data, ¬(c = '(' ∨ c = ')' ∨ c = ',')) ∨
          (∃ u v w, (spanText doc (a + 1) b).data = u ++ '(' :: v ++ ')' :: w) ∨
          (∃ u v w, (spanText doc (a + 1) b).data = u ++ ',' :: v ++ ',' :: w))) := by
  have hrev : (l ++ [a, b]).reverse = b :: a :: l.reverse := by simp
  simp only [matchRetain, spaceExceeded, hrev, Bool.false_eq_true, if_false]
  by_cases hnl : '\n' ∈ (spanText doc (a + 1) b).data
  · have hany : (spanText doc (a + 1) b).data.any (fun c => c == '\n') = true :=
      List.any_eq_true.mpr ⟨'\n', hnl, by simp⟩
    simp [hany, hnl]
  · have hany : (spanText doc (a + 1) b).data.any (fun c => c == '\n') = false := by
      rw [Bool.eq_false_iff]
      intro hcon
      obtain ⟨c, hc, hce⟩ := List.any_eq_true.mp hcon
      rw [beq_iff_eq] at hce
      exact hnl (hce ▸ hc)
    simp only [hany, Bool.false_or]
    have hbool : ∀ bb : Bool, ((if !bb then false else true) = true ↔ bb = true) := by decide
    rw [hbool]
    rw [reBetween_no_newline _ hnl]
    simp [hnl]
